import Mathlib

/-!
Shallow embedding of the deterministic core of the christmas-movie-bingo
application (src/components/BingoCardGenerator.jsx): the seeded PRNG, the
Fisher-Yates shuffle, the seed derivation hash, the highlight codec and the
win detector.  JS strings are modelled as lists of characters (UTF-16 code
units become `Char.toNat` codes), JS numbers carrying integer values are
modelled as `Int`/`Nat` with explicit 32-bit wraparound where the source
uses bitwise operators, and the PRNG's fractional outputs are modelled as
exact rationals.
-/

namespace Bingo

/-! ### JS string primitives -/

/-- Code points treated as whitespace by JS `String.prototype.trim` and by
`parseInt` when skipping leading space. -/
def jsWhitespaceCodes : List Nat :=
  [9, 10, 11, 12, 13, 32, 160, 0x1680, 0x2000, 0x2001, 0x2002, 0x2003,
   0x2004, 0x2005, 0x2006, 0x2007, 0x2008, 0x2009, 0x200A, 0x2028, 0x2029,
   0x202F, 0x205F, 0x3000, 0xFEFF]

def isJsWs (c : Char) : Bool := decide (c.toNat ∈ jsWhitespaceCodes)

/-- `String.prototype.toLowerCase` restricted to the Latin letters that the
application's inputs use: uppercase A-Z is shifted to a-z, everything else is
left unchanged. -/
def jsLowerChar (c : Char) : Char :=
  if 65 ≤ c.toNat ∧ c.toNat ≤ 90 then Char.ofNat (c.toNat + 32) else c

def jsToLowerCase (s : List Char) : List Char := s.map jsLowerChar

/-- `String.prototype.trim`: drop whitespace from both ends. -/
def jsTrim (s : List Char) : List Char :=
  (((s.dropWhile isJsWs).reverse).dropWhile isJsWs).reverse

/-! ### 32-bit wraparound arithmetic (JS bitwise operators use ToInt32) -/

/-- JS ToInt32: reduce an integer into the signed 32-bit range. -/
def toInt32 (n : Int) : Int := (n + 2 ^ 31) % 2 ^ 32 - 2 ^ 31

/-- JS ToUint32 of an integer value: the unsigned 32-bit bit pattern. -/
def toUint32 (n : Int) : Nat := (n % 2 ^ 32).toNat

/-! ### Seeded PRNG (`seededRandom`)

    function seededRandom(seed) {
      let value = seed
      return function() {
        value = (value * 9301 + 49297) % 233280
        return value / 233280
      }
    }

JS `%` is the truncating remainder (sign of the dividend), i.e. `Int.tmod`. -/

def lcgNext (st : Int) : Int := (st * 9301 + 49297).tmod 233280

/-- The generator's internal state before the `(n+1)`-st call; `lcgState s 0`
is the initial state, the seed itself. -/
def lcgState (seed : Int) : Nat → Int
  | 0 => seed
  | n + 1 => lcgNext (lcgState seed n)

/-- The value returned by the `(n+1)`-st call of the generator (0-indexed):
`value / 233280` as an exact rational. -/
def lcgOut (seed : Int) (n : Nat) : ℚ := (lcgState seed (n + 1) : ℚ) / 233280

/-! ### Seed derivation (`generateSeed`)

    const combined = name.toLowerCase().trim() + "_" + movie.toLowerCase().trim()
    let hash = 0
    for each char: hash = ((hash << 5) - hash) + charCode; hash = hash & hash
    return Math.abs(hash)

`hash << 5` is ToInt32(hash * 32) and `hash & hash` is ToInt32(hash). -/

def hashStep (h : Int) (c : Nat) : Int := toInt32 (toInt32 (h * 32) - h + c)

def hashString (s : List Char) : Int := s.foldl (fun h c => hashStep h c.toNat) 0

/-- `Math.abs` on an integer value. -/
def jsAbs (n : Int) : Int := if n < 0 then -n else n

def generateSeed (name movie : List Char) : Int :=
  jsAbs (hashString
    (jsTrim (jsToLowerCase name) ++ '_' :: jsTrim (jsToLowerCase movie)))

/-! ### Fisher-Yates shuffle (`seededShuffle`)

    function seededShuffle(array, seed) {
      const random = seededRandom(seed)
      const shuffled = [...array]
      for (let i = shuffled.length - 1; i > 0; i--) {
        const j = Math.floor(random() * (i + 1))
        ;[shuffled[i], shuffled[j]] = [shuffled[j], shuffled[i]]
      }
      return shuffled
    }

The JS array is modelled as an object with integer-keyed properties: a total
map `Int → Option α` where `none` is the JS `undefined` (reads of absent
indices, including negative ones, yield `undefined`; writes at any integer
key are stored).  `random() * (i + 1)` is evaluated exactly, and its
`Math.floor` is the floor division `Int.fdiv`. -/

def listToArr {α : Type} (a : List α) : Int → Option α :=
  fun i => if 0 ≤ i then a.get? i.toNat else none

/-- One loop iteration at index `i`: draw the next PRNG value, compute `j`,
swap slots `i` and `j`.  Returns the updated array and PRNG state. -/
def shuffleStep {α : Type} (f : Int → Option α) (st : Int) (i : Nat) :
    (Int → Option α) × Int :=
  let st' := lcgNext st
  let j : Int := (st' * ((i : Int) + 1)).fdiv 233280
  (Function.update (Function.update f (i : Int) (f j)) j (f (i : Int)), st')

/-- The loop, counting the index `i` down from its first value to `1`. -/
def shuffleLoop {α : Type} (f : Int → Option α) (st : Int) : Nat → (Int → Option α)
  | 0 => f
  | k + 1 => shuffleLoop (shuffleStep f st (k + 1)).1 (shuffleStep f st (k + 1)).2 k

def seededShuffle {α : Type} (a : List α) (seed : Int) : List (Option α) :=
  (List.range a.length).map fun t : Nat => shuffleLoop (listToArr a) seed (a.length - 1) (t : Int)

/-! ### Square keys and the flat-index mapping -/

/-- The template `square_${row}_${col}.png` used throughout the component. -/
def squareKey (row col : Nat) : List Char :=
  "square_".data ++ (Nat.repr row).data ++ "_".data ++ (Nat.repr col).data ++ ".png".data

/-- `indexToSquareKey`: `row = Math.floor(index / 5)`, `col = index % 5`. -/
def indexToSquareKey (index : Nat) : List Char := squareKey (index / 5) (index % 5)

def isDigitChar (c : Char) : Bool := 48 ≤ c.toNat && c.toNat ≤ 57

/-- Decimal value of a digit string, as computed by JS `parseInt` with radix 10. -/
def digitsVal (ds : List Char) : Nat := ds.foldl (fun a c => a * 10 + (c.toNat - 48)) 0

/-- Try to strip a literal off the front of a string. -/
def dropLit : List Char → List Char → Option (List Char)
  | [], s => some s
  | _ :: _, [] => none
  | a :: p, b :: s => if a = b then dropLit p s else none

/-- Match the regex `square_(\d+)_(\d+)\.png` at the start of `s`.  Each
`\d+` is greedy; since the character after it in the pattern is not a digit,
the greedy maximal run is the only candidate and no further backtracking can
succeed at this position. -/
def matchKeyAt (s : List Char) : Option (Nat × Nat) :=
  match dropLit "square_".data s with
  | none => none
  | some s1 =>
    let d1 := s1.takeWhile isDigitChar
    if d1.isEmpty then none else
    match s1.drop d1.length with
    | '_' :: s3 =>
      let d2 := s3.takeWhile isDigitChar
      if d2.isEmpty then none else
      match dropLit ".png".data (s3.drop d2.length) with
      | none => none
      | some _ => some (digitsVal d1, digitsVal d2)
    | _ => none

/-- Leftmost match of the (unanchored) regex anywhere in the string. -/
def searchKey : List Char → Option (Nat × Nat)
  | [] => none
  | c :: rest =>
    match matchKeyAt (c :: rest) with
    | some rc => some rc
    | none => searchKey rest

/-- `squareKeyToIndex`: regex-parse the key and return `row * 5 + col`,
`null` (here `none`) when the regex does not match. -/
def squareKeyToIndex (s : List Char) : Option Nat :=
  match searchKey s with
  | some rc => some (rc.1 * 5 + rc.2)
  | none => none

/-! ### Highlight codec (`encodeHighlights` / `decodeHighlights`) -/

/-- Contribution of one set member to the bitmask: `1 << index` when the key
parses to a valid index `0 ≤ index < 25`, otherwise nothing (or-ing 0).  The
`index < 25` guard keeps the shifted value below `2^25`, so the JS 32-bit
`|=`/`<<` coincide with `Nat.lor` and `2 ^ index` here. -/
def hlBit (k : List Char) : Nat :=
  match squareKeyToIndex k with
  | some i => if i < 25 then 2 ^ i else 0
  | none => 0

instance : Std.Commutative Nat.lor := ⟨Nat.lor_comm⟩
instance : Std.Associative Nat.lor := ⟨Nat.lor_assoc⟩

def encodeBitmask (S : Finset (List Char)) : Nat := S.fold Nat.lor 0 hlBit

/-- Lowercase base-36 digit, as produced by `Number.prototype.toString(36)`. -/
def digit36 (d : Nat) : Char := Char.ofNat (if d < 10 then d + 48 else d + 87)

/-- `Number.prototype.toString(36)` for a non-negative integer value. -/
def natToBase36 (n : Nat) : List Char :=
  if _h : n < 36 then [digit36 n]
  else natToBase36 (n / 36) ++ [digit36 (n % 36)]
decreasing_by exact Nat.div_lt_self (by omega) (by omega)

def encodeHighlights (S : Finset (List Char)) : List Char :=
  if S.card = 0 then [] else natToBase36 (encodeBitmask S)

/-- Base-36 digits accepted by `parseInt(_, 36)`: 0-9, a-z and A-Z. -/
def isBase36Digit (c : Char) : Bool :=
  (48 ≤ c.toNat && c.toNat ≤ 57) || (97 ≤ c.toNat && c.toNat ≤ 122) ||
  (65 ≤ c.toNat && c.toNat ≤ 90)

def base36Val (c : Char) : Nat :=
  if c.toNat ≤ 57 then c.toNat - 48
  else if c.toNat ≤ 90 then c.toNat - 55
  else c.toNat - 87

def base36DigitsVal (ds : List Char) : Nat :=
  ds.foldl (fun a c => a * 36 + base36Val c) 0

/-- `parseInt(s, 36)`: skip leading whitespace, read an optional sign, then
the longest prefix of base-36 digits; no digits means `NaN` (here `none`).
Trailing garbage is ignored.  `parseInt` never throws. -/
def jsParseInt36 (s : List Char) : Option Int :=
  let s1 := s.dropWhile isJsWs
  let sgn : Int := if s1.head? = some '-' then -1 else 1
  let s2 := if s1.head? = some '-' ∨ s1.head? = some '+' then s1.tail else s1
  let ds := s2.takeWhile isBase36Digit
  if ds.isEmpty then none else some (sgn * (base36DigitsVal ds : Int))

/-- Truthiness of `bitmask & (1 << i)` for `i < 32`: both operands pass
through ToInt32, and the resulting signed value is truthy iff the bitwise AND
of the 32-bit patterns is non-zero.  `ToInt32(NaN) = 0`, so a `NaN` bitmask
tests false for every bit. -/
def jsBitTest (m : Option Int) (i : Nat) : Bool :=
  match m with
  | none => false
  | some v => decide (Nat.land (toUint32 v) (2 ^ i % 2 ^ 32) ≠ 0)

/-- `decodeHighlights`: empty string (falsy) decodes to the empty set;
otherwise parse the base-36 bitmask and collect `indexToSquareKey i` for each
set bit `i < 25`. -/
def decodeHighlights (s : List Char) : Finset (List Char) :=
  if s.isEmpty then ∅
  else
    ((Finset.range 25).filter
      (fun i => jsBitTest (jsParseInt36 s) i = true)).image indexToSquareKey

/-! ### Win detector (`checkBingo`)

The source first builds a 5x5 boolean grid (cell (2,2) unconditionally true,
any other cell true iff its key is in the highlight set), then inserts into a
result set the keys of every all-true row, column and diagonal.  The grid
construction and the line checks are factored apart exactly as in the source;
sequential `Set.add` insertion becomes finite-set union. -/

/-- The boolean grid: free space always marked, otherwise membership. -/
def bingoGrid (S : Finset (List Char)) (row col : Nat) : Bool :=
  if row = 2 ∧ col = 2 then true else decide (squareKey row col ∈ S)

/-- Keys inserted by the horizontal-line checks. -/
def rowWinsG (g : Nat → Nat → Bool) : Finset (List Char) :=
  (Finset.range 5).biUnion fun row =>
    if (List.range 5).all (fun col => g row col) then
      ((List.range 5).map fun col => squareKey row col).toFinset
    else ∅

/-- Keys inserted by the vertical-line checks (the source's early-exit flag
`allHighlighted` computes exactly "all five cells are true"). -/
def colWinsG (g : Nat → Nat → Bool) : Finset (List Char) :=
  (Finset.range 5).biUnion fun col =>
    if (List.range 5).all (fun row => g row col) then
      ((List.range 5).map fun row => squareKey row col).toFinset
    else ∅

/-- Keys inserted by the main-diagonal check (`grid[i][i]`). -/
def diag1WinsG (g : Nat → Nat → Bool) : Finset (List Char) :=
  if (List.range 5).all (fun i => g i i) then
    ((List.range 5).map fun i => squareKey i i).toFinset
  else ∅

/-- Keys inserted by the anti-diagonal check (`grid[i][GRID_SIZE - 1 - i]`). -/
def diag2WinsG (g : Nat → Nat → Bool) : Finset (List Char) :=
  if (List.range 5).all (fun i => g i (4 - i)) then
    ((List.range 5).map fun i => squareKey i (4 - i)).toFinset
  else ∅

def checkBingoG (g : Nat → Nat → Bool) : Finset (List Char) :=
  rowWinsG g ∪ colWinsG g ∪ diag1WinsG g ∪ diag2WinsG g

def checkBingo (S : Finset (List Char)) : Finset (List Char) :=
  checkBingoG (bingoGrid S)

/-! ### Spec-side win detector, for the refinement claim

Modelled from the spec: "the union of coordinates belonging to every
fully-true line found" among the 5 rows, 5 columns and 2 diagonals, where a
cell is true iff it is the free space `(2,2)` or is in the highlight set. -/

def rowLine (r : Nat) : List (Nat × Nat) := (List.range 5).map fun c => (r, c)

def colLine (c : Nat) : List (Nat × Nat) := (List.range 5).map fun r => (r, c)

def diagLineMain : List (Nat × Nat) := (List.range 5).map fun i => (i, i)

def diagLineAnti : List (Nat × Nat) := (List.range 5).map fun i => (i, 4 - i)

/-- The 12 candidate lines of the 5x5 grid. -/
def gridLines : List (List (Nat × Nat)) :=
  ((List.range 5).map rowLine) ++ ((List.range 5).map colLine) ++
    [diagLineMain, diagLineAnti]

/-- A cell is marked iff it is the free space or its key is highlighted. -/
def markedSpec (S : Finset (List Char)) (rc : Nat × Nat) : Bool :=
  decide (rc = (2, 2)) || decide (squareKey rc.1 rc.2 ∈ S)

/-- Spec-side win set: the union of the coordinates of every
completely-marked line. -/
def winSetSpec (S : Finset (List Char)) : Finset (List Char) :=
  ((gridLines.filter (fun L => L.all (markedSpec S))).flatten.map
    fun rc => squareKey rc.1 rc.2).toFinset

/-! ### Derived vocabulary used by the claims -/

/-- The 24 canonical non-free square keys: every `square_r_c.png` with
`0 ≤ r, c < 5` except the free space `(2,2)` (flat index 12). -/
def valid24 : Finset (List Char) :=
  ((Finset.range 25).erase 12).image indexToSquareKey

/-- `a` and `b` differ only by surrounding whitespace and letter case: both
are some core surrounded by whitespace, and the two cores agree after
lower-casing. -/
def eqUpToWsCase (a b : List Char) : Prop :=
  ∃ w1 w2 w3 w4 core core2,
    (∀ c ∈ w1, isJsWs c) ∧ (∀ c ∈ w2, isJsWs c) ∧
    (∀ c ∈ w3, isJsWs c) ∧ (∀ c ∈ w4, isJsWs c) ∧
    a = w1 ++ core ++ w2 ∧ b = w3 ++ core2 ++ w4 ∧
    jsToLowerCase core = jsToLowerCase core2

/-! ## Theorems -/

/-! ### PRNG bounds -/

theorem lcgNext_bounds {st : Int} (h : 0 ≤ st) :
    0 ≤ lcgNext st ∧ lcgNext st < 233280 := by
  refine ⟨Int.tmod_nonneg _ ?_, Int.tmod_lt_of_pos _ (by norm_num)⟩
  have := mul_nonneg h (show (0 : Int) ≤ 9301 by norm_num)
  omega

theorem lcgState_bounds {seed : Int} (h : 0 ≤ seed) (n : Nat) :
    0 ≤ lcgState seed (n + 1) ∧ lcgState seed (n + 1) < 233280 := by
  induction n with
  | zero => exact lcgNext_bounds h
  | succ k ih => exact lcgNext_bounds ih.1

/-- C5 (amended): for every non-negative integer seed, the state evolves as
`state = (state * 9301 + 49297) % 233280` starting from the seed, each output
equals `state / 233280`, and every output lies in the half-open interval
`[0, 1)`.  (The original claim allowed arbitrary integer seeds; see the
counterexample for a negative seed.) -/
theorem claim_C5 :
    (∀ (seed : Int) (n : Nat),
        lcgState seed (n + 1) = (lcgState seed n * 9301 + 49297).tmod 233280 ∧
        lcgOut seed n = (lcgState seed (n + 1) : ℚ) / 233280) ∧
    ∀ seed : Int, 0 ≤ seed → ∀ n : Nat, 0 ≤ lcgOut seed n ∧ lcgOut seed n < 1 := by
  refine ⟨fun seed n => ⟨rfl, rfl⟩, fun seed h n => ?_⟩
  obtain ⟨h0, h1⟩ := lcgState_bounds h n
  constructor
  · exact div_nonneg (by exact_mod_cast h0) (by norm_num)
  · rw [lcgOut, div_lt_one (by norm_num)]
    exact_mod_cast h1

/-- Witness for C5 at seed 42, third output. -/
theorem claim_C5_witness : 0 ≤ lcgOut 42 3 ∧ lcgOut 42 3 < 1 :=
  claim_C5.2 42 (by norm_num) 3

/-- C5, original form, is false: with the (integer) seed `-100` the very
first output of the generator is negative, because JS `%` keeps the sign of
its dividend. -/
theorem claim_C5_counterexample :
    ¬ ∀ (seed : Int) (n : Nat), 0 ≤ lcgOut seed n ∧ lcgOut seed n < 1 := by
  intro h
  have h0 := (h (-100) 0).1
  have e : lcgState (-100) 1 = -180963 := by decide
  rw [lcgOut, e] at h0
  norm_num at h0

/-! ### Shuffle determinism (C4) -/

/-- C4: `seededShuffle` is a pure function of its array and seed arguments:
two invocations on equal inputs return identical outputs.  In the embedding
the function reads no state other than its arguments, so the result follows
definitionally. -/
theorem claim_C4 {α : Type} (a b : List α) (s t : Int)
    (hab : a = b) (hst : s = t) : seededShuffle a s = seededShuffle b t := by
  subst hab; subst hst; rfl

/-- Witness for C4 on a concrete array and seed. -/
theorem claim_C4_witness :
    seededShuffle [10, 20, 30] (7 : Int) = seededShuffle [10, 20, 30] (7 : Int) :=
  claim_C4 [10, 20, 30] [10, 20, 30] 7 7 rfl rfl

/-! ### Seed derivation totality (C8) -/

/-- C8: `generateSeed` is total over all pairs of strings and always returns
a non-negative integer (the final `Math.abs`). -/
theorem claim_C8 : ∀ name movie : List Char, 0 ≤ generateSeed name movie := by
  intro name movie
  unfold generateSeed jsAbs
  split <;> omega

/-! ### Decoder error handling (C7) -/

/-- C7: `decodeHighlights` never raises (it is a total function in the
embedding); the empty string decodes to the empty set, and any string whose
base-36 parse fails (`parseInt` returns `NaN`) also decodes to the empty
set. -/
theorem claim_C7 :
    decodeHighlights [] = ∅ ∧
    ∀ s : List Char, jsParseInt36 s = none → decodeHighlights s = ∅ := by
  constructor
  · rfl
  · intro s h
    unfold decodeHighlights
    split
    · rfl
    · rw [h]
      simp [jsBitTest]

/-- Witness for C7: a concrete malformed token. -/
theorem claim_C7_witness :
    jsParseInt36 "!!x".data = none ∧ decodeHighlights "!!x".data = ∅ :=
  ⟨by decide, claim_C7.2 "!!x".data (by decide)⟩

/-! ### Decoder range invariant (C10) -/

/-- C10: whatever the input string, the decoded set only contains the 25
canonical grid keys (images of flat indices 0-24), hence has at most 25
elements; and the free-space key can appear, e.g. for the token "35s"
(bitmask 4096 = bit 12). -/
theorem claim_C10 :
    (∀ s : List Char,
        decodeHighlights s ⊆ (Finset.range 25).image indexToSquareKey ∧
        (decodeHighlights s).card ≤ 25) ∧
    indexToSquareKey 12 ∈ decodeHighlights "35s".data := by
  constructor
  · intro s
    unfold decodeHighlights
    split
    · simp
    · constructor
      · exact Finset.image_subset_image (Finset.filter_subset _ _)
      · refine Finset.card_image_le.trans ?_
        exact (Finset.card_filter_le _ _).trans (by simp)
  · decide

/-! ### Free-space invariance of the win detector (C9) -/

theorem squareKey_eq_free_iff :
    ∀ r < 5, ∀ c < 5, (squareKey r c = squareKey 2 2 ↔ r = 2 ∧ c = 2) := by
  decide

theorem all_range5_congr {p q : Nat → Bool} (h : ∀ x, x < 5 → p x = q x) :
    (List.range 5).all p = (List.range 5).all q := by
  have e : List.range 5 = [0, 1, 2, 3, 4] := rfl
  rw [e]
  simp only [List.all_cons, List.all_nil,
    h 0 (by omega), h 1 (by omega), h 2 (by omega), h 3 (by omega), h 4 (by omega)]

/-- The win detector reads the grid only at coordinates `0 ≤ r, c < 5`. -/
theorem checkBingoG_congr {g1 g2 : Nat → Nat → Bool}
    (h : ∀ r < 5, ∀ c < 5, g1 r c = g2 r c) : checkBingoG g1 = checkBingoG g2 := by
  unfold checkBingoG rowWinsG colWinsG diag1WinsG diag2WinsG
  have hrow : ∀ row ∈ Finset.range 5,
      (List.range 5).all (fun col => g1 row col) =
      (List.range 5).all (fun col => g2 row col) := by
    intro row hrow
    exact all_range5_congr fun c hc => h row (Finset.mem_range.1 hrow) c hc
  have hcol : ∀ col ∈ Finset.range 5,
      (List.range 5).all (fun row => g1 row col) =
      (List.range 5).all (fun row => g2 row col) := by
    intro col hcol
    exact all_range5_congr fun r hr => h r hr col (Finset.mem_range.1 hcol)
  have hd1 : (List.range 5).all (fun i => g1 i i) =
      (List.range 5).all (fun i => g2 i i) :=
    all_range5_congr fun i hi => h i hi i hi
  have hd2 : (List.range 5).all (fun i => g1 i (4 - i)) =
      (List.range 5).all (fun i => g2 i (4 - i)) :=
    all_range5_congr fun i hi => h i hi (4 - i) (by omega)
  have e1 : ((Finset.range 5).biUnion fun row =>
        if (List.range 5).all (fun col => g1 row col) then
          ((List.range 5).map fun col => squareKey row col).toFinset
        else ∅) =
      (Finset.range 5).biUnion fun row =>
        if (List.range 5).all (fun col => g2 row col) then
          ((List.range 5).map fun col => squareKey row col).toFinset
        else ∅ :=
    Finset.biUnion_congr rfl fun row hr => by rw [hrow row hr]
  have e2 : ((Finset.range 5).biUnion fun col =>
        if (List.range 5).all (fun row => g1 row col) then
          ((List.range 5).map fun row => squareKey row col).toFinset
        else ∅) =
      (Finset.range 5).biUnion fun col =>
        if (List.range 5).all (fun row => g2 row col) then
          ((List.range 5).map fun row => squareKey row col).toFinset
        else ∅ :=
    Finset.biUnion_congr rfl fun col hc => by rw [hcol col hc]
  rw [hd1, hd2, e1, e2]

theorem bingoGrid_insert_free (S : Finset (List Char)) :
    ∀ r < 5, ∀ c < 5, bingoGrid (insert (squareKey 2 2) S) r c = bingoGrid S r c := by
  intro r hr c hc
  unfold bingoGrid
  by_cases h : r = 2 ∧ c = 2
  · rw [if_pos h, if_pos h]
  · rw [if_neg h, if_neg h]
    refine decide_eq_decide.2 ?_
    have hne : squareKey r c ≠ squareKey 2 2 := fun e =>
      h ((squareKey_eq_free_iff r hr c hc).1 e)
    simp [Finset.mem_insert, hne]

theorem bingoGrid_erase_free (S : Finset (List Char)) :
    ∀ r < 5, ∀ c < 5, bingoGrid (S.erase (squareKey 2 2)) r c = bingoGrid S r c := by
  intro r hr c hc
  unfold bingoGrid
  by_cases h : r = 2 ∧ c = 2
  · rw [if_pos h, if_pos h]
  · rw [if_neg h, if_neg h]
    refine decide_eq_decide.2 ?_
    have hne : squareKey r c ≠ squareKey 2 2 := fun e =>
      h ((squareKey_eq_free_iff r hr c hc).1 e)
    simp [Finset.mem_erase, hne]

/-- C9: the win detector ignores the free-space key in its argument — adding
or removing `square_2_2.png` from the highlight set does not change the
result, because grid cell (2,2) is set unconditionally. -/
theorem claim_C9 (S : Finset (List Char)) :
    checkBingo (insert (squareKey 2 2) S) = checkBingo S ∧
    checkBingo (S.erase (squareKey 2 2)) = checkBingo S := by
  unfold checkBingo
  exact ⟨checkBingoG_congr (bingoGrid_insert_free S),
    checkBingoG_congr (bingoGrid_erase_free S)⟩

/-! ### Win detector refinement (C2) -/

theorem all_map_comp {α β : Type} (f : α → β) (l : List α) (p : β → Bool) :
    (l.map f).all p = l.all fun x => p (f x) := by
  induction l with
  | nil => rfl
  | cons a l ih => simp [List.all_cons, ih]

theorem bingoGrid_eq_markedSpec (S : Finset (List Char)) (r c : Nat) :
    bingoGrid S r c = markedSpec S (r, c) := by
  unfold bingoGrid markedSpec
  by_cases h : r = 2 ∧ c = 2
  · rw [if_pos h]
    simp [Prod.ext_iff, h.1, h.2]
  · rw [if_neg h]
    have h2 : ¬((r, c) = ((2 : Nat), (2 : Nat))) := by
      simpa [Prod.ext_iff] using h
    simp [h2]

theorem rowLine_all (S : Finset (List Char)) (r : Nat) :
    (rowLine r).all (markedSpec S) = (List.range 5).all fun c => bingoGrid S r c := by
  rw [rowLine, all_map_comp]
  congr 1
  funext c
  rw [bingoGrid_eq_markedSpec]

theorem colLine_all (S : Finset (List Char)) (c : Nat) :
    (colLine c).all (markedSpec S) = (List.range 5).all fun r => bingoGrid S r c := by
  rw [colLine, all_map_comp]
  congr 1
  funext r
  rw [bingoGrid_eq_markedSpec]

theorem diagLineMain_all (S : Finset (List Char)) :
    diagLineMain.all (markedSpec S) = (List.range 5).all fun i => bingoGrid S i i := by
  rw [diagLineMain, all_map_comp]
  congr 1
  funext i
  rw [bingoGrid_eq_markedSpec]

theorem diagLineAnti_all (S : Finset (List Char)) :
    diagLineAnti.all (markedSpec S) = (List.range 5).all fun i => bingoGrid S i (4 - i) := by
  rw [diagLineAnti, all_map_comp]
  congr 1
  funext i
  rw [bingoGrid_eq_markedSpec]

theorem mem_ite_finset {c : Prop} [Decidable c] {s : Finset (List Char)}
    {a : List Char} : (a ∈ if c then s else ∅) ↔ c ∧ a ∈ s := by
  split <;> simp [*]

/-- Collapse one family of candidate lines (indexed by a list of line
indices) from the filter/flatten form of the spec into the indexed-union form
of the source. -/
theorem toFinset_flatten_filter_lines (l : List Nat)
    (lineOf : Nat → List (Nat × Nat)) (p : List (Nat × Nat) → Bool) :
    ((((l.map lineOf).filter p).flatten.map
        fun rc => squareKey rc.1 rc.2).toFinset : Finset (List Char)) =
      l.toFinset.biUnion fun r =>
        if p (lineOf r) then
          ((lineOf r).map fun rc => squareKey rc.1 rc.2).toFinset
        else ∅ := by
  induction l with
  | nil => rfl
  | cons a l ih =>
    by_cases h : p (lineOf a) = true
    · rw [List.map_cons, List.filter_cons_of_pos h, List.flatten_cons,
        List.map_append, List.toFinset_append, ih, List.toFinset_cons,
        Finset.biUnion_insert, if_pos h]
    · rw [List.map_cons, List.filter_cons_of_neg h, ih, List.toFinset_cons,
        Finset.biUnion_insert, if_neg h, Finset.empty_union]

theorem list_range_toFinset (n : Nat) :
    (List.range n).toFinset = Finset.range n := by
  ext x
  simp

theorem checkBingo_eq_winSetSpec (S : Finset (List Char)) :
    checkBingo S = winSetSpec S := by
  rw [checkBingo, checkBingoG, winSetSpec, gridLines]
  rw [List.filter_append, List.filter_append, List.flatten_append,
    List.flatten_append, List.map_append, List.map_append,
    List.toFinset_append, List.toFinset_append]
  rw [toFinset_flatten_filter_lines (List.range 5) rowLine,
    toFinset_flatten_filter_lines (List.range 5) colLine, list_range_toFinset]
  have hrow : ((Finset.range 5).biUnion fun r =>
      if (rowLine r).all (markedSpec S) then
        ((rowLine r).map fun rc => squareKey rc.1 rc.2).toFinset
      else ∅) = rowWinsG (bingoGrid S) := by
    refine Finset.biUnion_congr rfl fun r _ => ?_
    rw [rowLine_all]
    by_cases h : (List.range 5).all (fun col => bingoGrid S r col) = true
    · rw [if_pos h, if_pos h, rowLine, List.map_map]
      rfl
    · rw [if_neg h, if_neg h]
  have hcol : ((Finset.range 5).biUnion fun c =>
      if (colLine c).all (markedSpec S) then
        ((colLine c).map fun rc => squareKey rc.1 rc.2).toFinset
      else ∅) = colWinsG (bingoGrid S) := by
    refine Finset.biUnion_congr rfl fun c _ => ?_
    rw [colLine_all]
    by_cases h : (List.range 5).all (fun row => bingoGrid S row c) = true
    · rw [if_pos h, if_pos h, colLine, List.map_map]
      rfl
    · rw [if_neg h, if_neg h]
  have hdiag : ((([diagLineMain, diagLineAnti].filter
        fun L => L.all (markedSpec S)).flatten.map
          fun rc => squareKey rc.1 rc.2).toFinset : Finset (List Char)) =
      diag1WinsG (bingoGrid S) ∪ diag2WinsG (bingoGrid S) := by
    have e1 : (diagLineMain.map fun rc => squareKey rc.1 rc.2) =
        (List.range 5).map fun i => squareKey i i := by
      rw [diagLineMain, List.map_map]
      rfl
    have e2 : (diagLineAnti.map fun rc => squareKey rc.1 rc.2) =
        (List.range 5).map fun i => squareKey i (4 - i) := by
      rw [diagLineAnti, List.map_map]
      rfl
    rw [diag1WinsG, diag2WinsG, ← diagLineMain_all S, ← diagLineAnti_all S]
    by_cases h1 : diagLineMain.all (markedSpec S) = true <;>
      by_cases h2 : diagLineAnti.all (markedSpec S) = true
    · simp only [List.filter_cons, List.filter_nil]
      rw [if_pos h1, if_pos h2]
      simp only [List.flatten_cons, List.flatten_nil, List.append_nil]
      rw [List.map_append, List.toFinset_append, if_pos h1, if_pos h2, e1, e2]
    · simp only [List.filter_cons, List.filter_nil]
      rw [if_pos h1, if_neg h2]
      simp only [List.flatten_cons, List.flatten_nil, List.append_nil]
      rw [if_pos h1, if_neg h2, Finset.union_empty, e1]
    · simp only [List.filter_cons, List.filter_nil]
      rw [if_neg h1, if_pos h2]
      simp only [List.flatten_cons, List.flatten_nil, List.append_nil]
      rw [if_neg h1, if_pos h2, Finset.empty_union, e2]
    · simp only [List.filter_cons, List.filter_nil]
      rw [if_neg h1, if_neg h2]
      simp only [List.flatten_nil, List.map_nil, List.toFinset_nil]
      rw [if_neg h1, if_neg h2, Finset.union_empty]
  rw [hrow, hcol, hdiag]
  rw [Finset.union_assoc]

/-- C2: `checkBingo` returns exactly the spec-side win set — the union of the
coordinates of every completely-marked line among the 5 rows, 5 columns and 2
diagonals, a cell being marked iff it is the free space (2,2) or belongs to
the highlight set.  In particular, marking `(2,0),(2,1),(2,3),(2,4)` completes
row 2 through the implicit free space and the win set contains `(2,2)`, while
a highlight set completing no line yields the empty set. -/
theorem claim_C2 :
    (∀ S : Finset (List Char), checkBingo S = winSetSpec S) ∧
    checkBingo {squareKey 2 0, squareKey 2 1, squareKey 2 3, squareKey 2 4} =
      {squareKey 2 0, squareKey 2 1, squareKey 2 2, squareKey 2 3, squareKey 2 4} ∧
    squareKey 2 2 ∈
      checkBingo {squareKey 2 0, squareKey 2 1, squareKey 2 3, squareKey 2 4} ∧
    checkBingo {squareKey 0 0} = ∅ :=
  ⟨checkBingo_eq_winSetSpec, by decide, by decide, by decide⟩

/-! ### Seed normalization invariance (C6) -/

theorem char_toNat_ofNat {n : Nat} (h : n < 55296) : (Char.ofNat n).toNat = n := by
  unfold Char.ofNat
  rw [dif_pos (Or.inl h)]
  rfl

theorem isJsWs_jsLowerChar (c : Char) : isJsWs (jsLowerChar c) = isJsWs c := by
  unfold jsLowerChar
  split
  · next h =>
    have hc : (Char.ofNat (c.toNat + 32)).toNat = c.toNat + 32 :=
      char_toNat_ofNat (by omega)
    have h1 : c.toNat + 32 ∉ jsWhitespaceCodes := by
      intro hm
      simp only [jsWhitespaceCodes, List.mem_cons, List.not_mem_nil,
        or_false] at hm
      omega
    have h2 : c.toNat ∉ jsWhitespaceCodes := by
      intro hm
      simp only [jsWhitespaceCodes, List.mem_cons, List.not_mem_nil,
        or_false] at hm
      omega
    unfold isJsWs
    rw [hc]
    simp [h1, h2]
  · rfl

theorem jsToLowerCase_ws {w : List Char} (hw : ∀ c ∈ w, isJsWs c) :
    ∀ c ∈ jsToLowerCase w, isJsWs c := by
  intro c hc
  obtain ⟨d, hd, rfl⟩ := List.mem_map.1 hc
  rw [isJsWs_jsLowerChar]
  exact hw d hd

theorem jsToLowerCase_append (x y : List Char) :
    jsToLowerCase (x ++ y) = jsToLowerCase x ++ jsToLowerCase y :=
  List.map_append jsLowerChar x y

theorem jsTrim_ws_pre {w s : List Char} (hw : ∀ c ∈ w, isJsWs c) :
    jsTrim (w ++ s) = jsTrim s := by
  unfold jsTrim
  rw [List.dropWhile_append_of_pos hw]

theorem jsTrim_ws_post {s w : List Char} (hw : ∀ c ∈ w, isJsWs c) :
    jsTrim (s ++ w) = jsTrim s := by
  unfold jsTrim
  rw [List.dropWhile_append]
  by_cases h : (s.dropWhile isJsWs).isEmpty = true
  · rw [if_pos h]
    have hwd : List.dropWhile isJsWs w = [] :=
      List.dropWhile_eq_nil_iff.2 hw
    have hsd : List.dropWhile isJsWs s = [] := List.isEmpty_iff.1 h
    rw [hwd, hsd]
  · rw [if_neg h, List.reverse_append,
      List.dropWhile_append_of_pos fun a ha => hw a (List.mem_reverse.1 ha)]

theorem norm_of_eqUpToWsCase {a b : List Char} (h : eqUpToWsCase a b) :
    jsTrim (jsToLowerCase a) = jsTrim (jsToLowerCase b) := by
  obtain ⟨w1, w2, w3, w4, core, core2, hw1, hw2, hw3, hw4, rfl, rfl, hcore⟩ := h
  rw [jsToLowerCase_append, jsToLowerCase_append,
    jsTrim_ws_post (jsToLowerCase_ws hw2), jsTrim_ws_pre (jsToLowerCase_ws hw1),
    hcore]
  rw [jsToLowerCase_append, jsToLowerCase_append,
    jsTrim_ws_post (jsToLowerCase_ws hw4), jsTrim_ws_pre (jsToLowerCase_ws hw3)]

/-- C6: the derived seed only depends on its two inputs up to surrounding
whitespace and letter case, because each input is lower-cased and trimmed
before hashing. -/
theorem claim_C6 (name movie nm mv : List Char)
    (h1 : eqUpToWsCase name nm) (h2 : eqUpToWsCase movie mv) :
    generateSeed name movie = generateSeed nm mv := by
  unfold generateSeed
  rw [norm_of_eqUpToWsCase h1, norm_of_eqUpToWsCase h2]

/-- Witness for C6: the spec's concrete normalization example. -/
theorem claim_C6_witness :
    generateSeed "Alice".data "Elf".data = generateSeed " alice ".data " ELF ".data :=
  claim_C6 "Alice".data "Elf".data " alice ".data " ELF ".data
    ⟨[], [], [' '], [' '], "Alice".data, "alice".data, by decide⟩
    ⟨[], [], [' '], [' '], "Elf".data, "ELF".data, by decide⟩

/-! ### Shuffle permutation (C3) -/

theorem list_toFinset_map {α β : Type} [DecidableEq α] [DecidableEq β]
    (l : List α) (f : α → β) : (l.map f).toFinset = l.toFinset.image f := by
  induction l with
  | nil => rfl
  | cons a l ih => simp [ih]

theorem update_swap_eq {α : Type} (f : Int → Option α) (i j t : Int) :
    Function.update (Function.update f i (f j)) j (f i) t =
      f (Equiv.swap i j t) := by
  rcases eq_or_ne t j with rfl | htj
  · rw [Function.update_same, Equiv.swap_apply_right]
  · rw [Function.update_noteq htj]
    rcases eq_or_ne t i with rfl | hti
    · rw [Function.update_same, Equiv.swap_apply_left]
    · rw [Function.update_noteq hti, Equiv.swap_apply_of_ne_of_ne hti htj]

theorem mem_int_range_iff (n : Nat) (z : Int) :
    z ∈ (Finset.range n).image (fun t : Nat => (t : Int)) ↔ 0 ≤ z ∧ z < n := by
  rw [Finset.mem_image]
  constructor
  · rintro ⟨t, ht, rfl⟩
    exact ⟨by positivity, by exact_mod_cast Finset.mem_range.1 ht⟩
  · rintro ⟨h0, h1⟩
    refine ⟨z.toNat, Finset.mem_range.2 ?_, ?_⟩
    · omega
    · omega

/-- Swapping two in-range indices permutes the read-out of the array. -/
theorem swap_range_perm (n : Nat) (i j : Int)
    (hi : 0 ≤ i ∧ i < n) (hj : 0 ≤ j ∧ j < n) :
    List.Perm ((List.range n).map fun t : Nat => Equiv.swap i j (t : Int))
      ((List.range n).map fun t : Nat => (t : Int)) := by
  apply List.perm_of_nodup_nodup_toFinset_eq
  · exact (List.nodup_range n).map
      (((Equiv.swap i j).injective).comp Nat.cast_injective)
  · exact (List.nodup_range n).map Nat.cast_injective
  · rw [list_toFinset_map, list_toFinset_map]
    have e : ((List.range n).toFinset.image fun t : Nat => Equiv.swap i j (t : Int)) =
        ((List.range n).toFinset.image fun t : Nat => (t : Int)).image
          (Equiv.swap i j) := by
      rw [Finset.image_image]
      rfl
    rw [e, list_range_toFinset]
    ext x
    rw [Finset.mem_image]
    constructor
    · rintro ⟨y, hy, rfl⟩
      rw [mem_int_range_iff] at hy ⊢
      rcases eq_or_ne y i with rfl | hyi
      · rw [Equiv.swap_apply_left]
        exact hj
      · rcases eq_or_ne y j with rfl | hyj
        · rw [Equiv.swap_apply_right]
          exact hi
        · rw [Equiv.swap_apply_of_ne_of_ne hyi hyj]
          exact hy
    · intro hx
      refine ⟨Equiv.swap i j x, ?_, Equiv.swap_apply_self i j x⟩
      rw [mem_int_range_iff] at hx ⊢
      rcases eq_or_ne x i with rfl | hxi
      · rw [Equiv.swap_apply_left]
        exact hj
      · rcases eq_or_ne x j with rfl | hxj
        · rw [Equiv.swap_apply_right]
          exact hi
        · rw [Equiv.swap_apply_of_ne_of_ne hxi hxj]
          exact hx

theorem shuffle_swap_perm {α : Type} (f : Int → Option α) (n : Nat) (i j : Int)
    (hi : 0 ≤ i ∧ i < n) (hj : 0 ≤ j ∧ j < n) :
    List.Perm
      ((List.range n).map fun t : Nat =>
        Function.update (Function.update f i (f j)) j (f i) (t : Int))
      ((List.range n).map fun t : Nat => f (t : Int)) := by
  have e1 : ((List.range n).map fun t : Nat =>
      Function.update (Function.update f i (f j)) j (f i) (t : Int)) =
      ((List.range n).map fun t : Nat => Equiv.swap i j (t : Int)).map f := by
    rw [List.map_map]
    exact List.map_congr_left fun t _ => update_swap_eq f i j (t : Int)
  have e2 : ((List.range n).map fun t : Nat => f (t : Int)) =
      ((List.range n).map fun t : Nat => (t : Int)).map f := by
    rw [List.map_map]
    rfl
  rw [e1, e2]
  exact (swap_range_perm n i j hi hj).map f

/-- Bounds for the drawn index `j = Math.floor(random() * (i + 1))` when the
PRNG state is non-negative. -/
theorem shuffleStep_j_bounds (st : Int) (hst : 0 ≤ st) (i : Nat) :
    0 ≤ (lcgNext st * ((i : Int) + 1)).fdiv 233280 ∧
      (lcgNext st * ((i : Int) + 1)).fdiv 233280 ≤ (i : Int) := by
  obtain ⟨h0, h1⟩ := lcgNext_bounds hst
  constructor
  · exact Int.fdiv_nonneg (mul_nonneg h0 (by positivity)) (by norm_num)
  · rw [Int.fdiv_eq_ediv _ (by norm_num)]
    have hlt : lcgNext st * ((i : Int) + 1) < ((i : Int) + 1) * 233280 := by
      calc lcgNext st * ((i : Int) + 1) < 233280 * ((i : Int) + 1) :=
            mul_lt_mul_of_pos_right h1 (by positivity)
        _ = ((i : Int) + 1) * 233280 := mul_comm _ _
    have h2 := (Int.ediv_lt_iff_lt_mul (show (0 : Int) < 233280 by norm_num)).2 hlt
    omega

theorem shuffleLoop_perm {α : Type} (n : Nat) :
    ∀ k : Nat, k < n → ∀ (f : Int → Option α) (st : Int), 0 ≤ st →
      List.Perm ((List.range n).map fun t : Nat => shuffleLoop f st k (t : Int))
        ((List.range n).map fun t : Nat => f (t : Int)) := by
  intro k
  induction k with
  | zero =>
    intro _ f st _
    exact List.Perm.refl _
  | succ k ih =>
    intro hk f st hst
    have hb := lcgNext_bounds hst
    have hjb := shuffleStep_j_bounds st hst (k + 1)
    rw [shuffleLoop]
    refine List.Perm.trans (ih (by omega) _ _ hb.1) ?_
    exact shuffle_swap_perm f n ((k + 1 : Nat) : Int) _
      ⟨by positivity, by exact_mod_cast hk⟩
      ⟨hjb.1, lt_of_le_of_lt hjb.2 (by exact_mod_cast hk)⟩

/-- C3 (amended): for every input array and every NON-NEGATIVE seed, the
output of `seededShuffle` has the same length as the input and is a
permutation of it (the input's elements seen through the array embedding, as
`some`-values).  The original claim ranged over every seed; a negative seed
makes the PRNG output negative values, so the drawn index `j` can be
negative, and the JS swap then writes `undefined` into the array — see the
counterexample. -/
theorem claim_C3 {α : Type} (a : List α) (s : Int) (hs : 0 ≤ s) :
    (seededShuffle a s).length = a.length ∧
      List.Perm (seededShuffle a s) (a.map some) := by
  have base : ((List.range a.length).map fun t : Nat => listToArr a (t : Int)) =
      a.map some := by
    apply List.ext_getElem
    · simp
    · intro t h1 h2
      simp only [List.getElem_map, List.getElem_range]
      unfold listToArr
      rw [if_pos (by positivity), Int.toNat_ofNat, List.get?_eq_getElem?,
        List.getElem?_eq_getElem (by simpa using h2)]
  rcases Nat.eq_zero_or_pos a.length with h0 | hpos
  · have ha : a = [] := List.length_eq_zero.1 h0
    subst ha
    exact ⟨rfl, List.Perm.refl _⟩
  · have hperm := shuffleLoop_perm a.length (a.length - 1) (by omega)
      (listToArr a) s hs
    constructor
    · simp [seededShuffle]
    · unfold seededShuffle
      rw [← base]
      exact hperm

/-- Witness for C3 on a concrete array and seed. -/
theorem claim_C3_witness :
    (seededShuffle [10, 20, 30] (7 : Int)).length = 3 ∧
      List.Perm (seededShuffle [10, 20, 30] (7 : Int)) ([10, 20, 30].map some) :=
  claim_C3 [10, 20, 30] 7 (by norm_num)

/-- C3, original form, is false: with seed `-100` the first PRNG draw is
negative, the drawn index is `-19`, and the JS destructuring swap stores
`undefined` into slot 23 — the result is not a permutation of the input. -/
theorem claim_C3_counterexample :
    ¬ ((seededShuffle [0, 1, 2, 3] (-100 : Int)).length = ([0, 1, 2, 3] : List Nat).length ∧
       List.Perm (seededShuffle [0, 1, 2, 3] (-100 : Int))
         (([0, 1, 2, 3] : List Nat).map some)) := by
  intro h
  have hn : (none : Option Nat) ∈ seededShuffle [0, 1, 2, 3] (-100 : Int) := by
    decide
  have hm := h.2.subset hn
  simp [List.mem_map] at hm

/-! ### Highlight codec round trip (C1) -/

theorem squareKeyToIndex_indexToSquareKey :
    ∀ n ∈ Finset.range 25, squareKeyToIndex (indexToSquareKey n) = some n := by
  decide

theorem hlBit_indexToSquareKey :
    ∀ n ∈ Finset.range 25, hlBit (indexToSquareKey n) = 2 ^ n := by
  decide

theorem mem_valid24 {k : List Char} :
    k ∈ valid24 ↔ ∃ n, n < 25 ∧ n ≠ 12 ∧ indexToSquareKey n = k := by
  unfold valid24
  simp only [Finset.mem_image, Finset.mem_erase, Finset.mem_range]
  constructor
  · rintro ⟨n, ⟨hn12, hn25⟩, rfl⟩
    exact ⟨n, hn25, hn12, rfl⟩
  · rintro ⟨n, hn25, hn12, rfl⟩
    exact ⟨n, ⟨hn12, hn25⟩, rfl⟩

theorem testBit_encodeBitmask (S : Finset (List Char)) (t : Nat) :
    (encodeBitmask S).testBit t = true ↔ ∃ k ∈ S, (hlBit k).testBit t = true := by
  classical
  induction S using Finset.induction_on with
  | empty => simp [encodeBitmask]
  | @insert a s ha ih =>
    rw [show encodeBitmask (insert a s) = Nat.lor (hlBit a) (encodeBitmask s)
      from Finset.fold_insert ha]
    rw [show Nat.lor (hlBit a) (encodeBitmask s) = hlBit a ||| encodeBitmask s
      from rfl]
    rw [Nat.testBit_or, Bool.or_eq_true, ih]
    simp [Finset.mem_insert, exists_eq_or_imp]

theorem encodeBitmask_lt (S : Finset (List Char)) (hS : S ⊆ valid24) :
    encodeBitmask S < 2 ^ 25 := by
  apply Nat.lt_pow_two_of_testBit
  intro i hi
  by_contra hbit
  rw [Bool.not_eq_false] at hbit
  obtain ⟨k, hk, hb⟩ := (testBit_encodeBitmask S i).1 hbit
  obtain ⟨n, hn25, hn12, rfl⟩ := mem_valid24.1 (hS hk)
  rw [hlBit_indexToSquareKey n (Finset.mem_range.2 hn25), Nat.testBit_two_pow] at hb
  have := of_decide_eq_true hb
  omega

theorem digit36_toNat {d : Nat} (h : d < 36) :
    (digit36 d).toNat = if d < 10 then d + 48 else d + 87 := by
  unfold digit36
  by_cases h10 : d < 10
  · rw [if_pos h10, char_toNat_ofNat (by omega)]
  · rw [if_neg h10, char_toNat_ofNat (by omega)]

theorem digit36_props {d : Nat} (h : d < 36) :
    isBase36Digit (digit36 d) = true ∧ isJsWs (digit36 d) = false ∧
      digit36 d ≠ '-' ∧ digit36 d ≠ '+' ∧ base36Val (digit36 d) = d := by
  have hc := digit36_toNat h
  have hcode : (digit36 d).toNat = d + 48 ∨ (digit36 d).toNat = d + 87 := by
    by_cases h10 : d < 10
    · rw [if_pos h10] at hc
      exact Or.inl hc
    · rw [if_neg h10] at hc
      exact Or.inr hc
  have hrange : (48 ≤ (digit36 d).toNat ∧ (digit36 d).toNat ≤ 57) ∨
      (97 ≤ (digit36 d).toNat ∧ (digit36 d).toNat ≤ 122) := by
    by_cases h10 : d < 10
    · rw [if_pos h10] at hc
      omega
    · rw [if_neg h10] at hc
      omega
  refine ⟨?_, ?_, ?_, ?_, ?_⟩
  · simp only [isBase36Digit, Bool.or_eq_true, Bool.and_eq_true,
      decide_eq_true_eq]
    omega
  · simp only [isJsWs, jsWhitespaceCodes, decide_eq_false_iff_not,
      List.mem_cons, List.not_mem_nil, or_false]
    omega
  · intro e
    have h45 : ('-' : Char).toNat = 45 := by decide
    rw [← e] at h45
    omega
  · intro e
    have h43 : ('+' : Char).toNat = 43 := by decide
    rw [← e] at h43
    omega
  · unfold base36Val
    by_cases h10 : d < 10
    · rw [if_pos h10] at hc
      rw [hc, if_pos (by omega)]
      omega
    · rw [if_neg h10] at hc
      rw [hc, if_neg (by omega), if_neg (by omega)]
      omega

theorem natToBase36_ne_nil (n : Nat) : natToBase36 n ≠ [] := by
  rw [natToBase36]
  split <;> simp

theorem natToBase36_props :
    ∀ n, ∀ c ∈ natToBase36 n,
      isBase36Digit c = true ∧ isJsWs c = false ∧ c ≠ '-' ∧ c ≠ '+' := by
  intro n
  induction n using Nat.strong_induction_on with
  | _ n ih =>
    intro c hc
    rw [natToBase36] at hc
    split at hc
    · next h =>
      rw [List.mem_singleton] at hc
      subst hc
      obtain ⟨p1, p2, p3, p4, _⟩ := digit36_props h
      exact ⟨p1, p2, p3, p4⟩
    · next h =>
      rw [List.mem_append, List.mem_singleton] at hc
      rcases hc with hc | hc
      · exact ih (n / 36) (Nat.div_lt_self (by omega) (by omega)) c hc
      · subst hc
        obtain ⟨p1, p2, p3, p4, _⟩ := digit36_props (Nat.mod_lt n (by omega))
        exact ⟨p1, p2, p3, p4⟩

theorem base36DigitsVal_append (l : List Char) (c : Char) :
    base36DigitsVal (l ++ [c]) = base36DigitsVal l * 36 + base36Val c := by
  unfold base36DigitsVal
  rw [List.foldl_append]
  rfl

theorem base36DigitsVal_natToBase36 : ∀ n, base36DigitsVal (natToBase36 n) = n := by
  intro n
  induction n using Nat.strong_induction_on with
  | _ n ih =>
    rw [natToBase36]
    split
    · next h =>
      simp [base36DigitsVal, (digit36_props h).2.2.2.2]
    · next h =>
      rw [base36DigitsVal_append,
        ih (n / 36) (Nat.div_lt_self (by omega) (by omega)),
        (digit36_props (Nat.mod_lt n (by omega))).2.2.2.2]
      omega

theorem jsParseInt36_natToBase36 (n : Nat) :
    jsParseInt36 (natToBase36 n) = some (n : Int) := by
  obtain ⟨c, rest, e⟩ : ∃ c rest, natToBase36 n = c :: rest := by
    cases h : natToBase36 n with
    | nil => exact absurd h (natToBase36_ne_nil n)
    | cons c rest => exact ⟨c, rest, rfl⟩
  have hc := natToBase36_props n c (by rw [e]; exact List.mem_cons_self c rest)
  have h1 : List.dropWhile isJsWs (c :: rest) = c :: rest := by
    rw [List.dropWhile_cons, hc.2.1]
    simp
  have h2 : ((c :: rest).head? = some '-') = False := by
    simp only [List.head?_cons, Option.some.injEq, eq_iff_iff, iff_false]
    exact hc.2.2.1
  have h3 : ((c :: rest).head? = some '+') = False := by
    simp only [List.head?_cons, Option.some.injEq, eq_iff_iff, iff_false]
    exact hc.2.2.2
  have h4 : List.takeWhile isBase36Digit (c :: rest) = c :: rest := by
    rw [List.takeWhile_eq_self_iff]
    intro x hx
    exact (natToBase36_props n x (by rw [e]; exact hx)).1
  have h5 : base36DigitsVal (c :: rest) = n := by
    rw [← e, base36DigitsVal_natToBase36]
  unfold jsParseInt36
  simp only [e, h1, h2, h3, h4, h5, if_false, or_self, List.isEmpty_cons,
    Bool.false_eq_true, one_mul, ite_false]

theorem toUint32_ofNat {m : Nat} (h : m < 2 ^ 32) : toUint32 (m : Int) = m := by
  unfold toUint32
  rw [Int.emod_eq_of_lt (by positivity) (by exact_mod_cast h)]
  exact Int.toNat_ofNat m

theorem land_two_pow_ne_zero_iff (m i : Nat) :
    Nat.land m (2 ^ i) ≠ 0 ↔ m.testBit i = true := by
  constructor
  · intro h
    obtain ⟨t, ht⟩ := Nat.ne_zero_implies_bit_true h
    have ht2 : (m &&& 2 ^ i).testBit t = true := ht
    rw [Nat.testBit_and, Bool.and_eq_true, Nat.testBit_two_pow] at ht2
    have : i = t := of_decide_eq_true ht2.2
    subst this
    exact ht2.1
  · intro h h0
    have hb : (m &&& 2 ^ i).testBit i = true := by
      rw [Nat.testBit_and, h, Nat.testBit_two_pow]
      simp
    rw [show m &&& 2 ^ i = Nat.land m (2 ^ i) from rfl, h0,
      Nat.zero_testBit] at hb
    exact Bool.false_ne_true hb

theorem jsBitTest_some {m : Nat} (hm : m < 2 ^ 32) {i : Nat} (hi : i < 32) :
    jsBitTest (some (m : Int)) i = m.testBit i := by
  show decide (Nat.land (toUint32 (m : Int)) (2 ^ i % 2 ^ 32) ≠ 0) = m.testBit i
  have hp : (2 : Nat) ^ i < 2 ^ 32 := Nat.pow_lt_pow_right (by omega) hi
  rw [toUint32_ofNat hm, Nat.mod_eq_of_lt hp]
  cases hb : m.testBit i
  · rw [decide_eq_false_iff_not]
    intro hne
    have := (land_two_pow_ne_zero_iff m i).1 hne
    rw [hb] at this
    exact Bool.false_ne_true this
  · rw [decide_eq_true_eq.mpr ((land_two_pow_ne_zero_iff m i).2 hb)]

theorem decode_encode (S : Finset (List Char)) (hS : S ⊆ valid24)
    (hne : S.card ≠ 0) : decodeHighlights (encodeHighlights S) = S := by
  rw [encodeHighlights, if_neg hne]
  have hlt : encodeBitmask S < 2 ^ 25 := encodeBitmask_lt S hS
  have hlt32 : encodeBitmask S < 2 ^ 32 := lt_trans hlt (by norm_num)
  unfold decodeHighlights
  rw [if_neg (by
    rw [List.isEmpty_iff]
    exact natToBase36_ne_nil (encodeBitmask S))]
  rw [jsParseInt36_natToBase36]
  rw [Finset.filter_congr fun i hi =>
    (by rw [jsBitTest_some hlt32 (by have := Finset.mem_range.1 hi; omega)] :
      (jsBitTest (some ((encodeBitmask S : Nat) : Int)) i = true) ↔
        ((encodeBitmask S).testBit i = true))]
  ext k
  simp only [Finset.mem_image, Finset.mem_filter, Finset.mem_range]
  constructor
  · rintro ⟨i, ⟨hi25, hbit⟩, rfl⟩
    obtain ⟨k2, hk2, hb⟩ := (testBit_encodeBitmask S i).1 hbit
    obtain ⟨n, hn25, hn12, rfl⟩ := mem_valid24.1 (hS hk2)
    rw [hlBit_indexToSquareKey n (Finset.mem_range.2 hn25),
      Nat.testBit_two_pow] at hb
    have : n = i := of_decide_eq_true hb
    subst this
    exact hk2
  · intro hk
    obtain ⟨n, hn25, hn12, rfl⟩ := mem_valid24.1 (hS hk)
    refine ⟨n, ⟨hn25, ?_⟩, rfl⟩
    apply (testBit_encodeBitmask S n).2
    refine ⟨indexToSquareKey n, hk, ?_⟩
    rw [hlBit_indexToSquareKey n (Finset.mem_range.2 hn25)]
    exact Nat.testBit_two_pow_self

/-- C1: encoding then decoding reproduces any highlight set drawn from the 24
non-free grid keys; the empty set encodes to the empty string, and the empty
string decodes to the empty set. -/
theorem claim_C1 :
    (∀ S : Finset (List Char), S ⊆ valid24 →
        decodeHighlights (encodeHighlights S) = S) ∧
    encodeHighlights ∅ = [] ∧ decodeHighlights [] = ∅ := by
  refine ⟨fun S hS => ?_, rfl, rfl⟩
  by_cases h : S.card = 0
  · have he : S = ∅ := Finset.card_eq_zero.1 h
    subst he
    rfl
  · exact decode_encode S hS h

/-- Witness for C1 on a concrete two-element highlight set. -/
theorem claim_C1_witness :
    ({squareKey 0 0, squareKey 2 3} : Finset (List Char)) ⊆ valid24 ∧
      decodeHighlights (encodeHighlights {squareKey 0 0, squareKey 2 3}) =
        {squareKey 0 0, squareKey 2 3} :=
  ⟨by decide, claim_C1.1 {squareKey 0 0, squareKey 2 3} (by decide)⟩

end Bingo
